import Mathlib

/-!
Verification development for the `MarkdownLinkFixer` script
(`docs/update_translations.py`) and the `Colors` palette helper
(`ultralytics/test/data/dataset/yolodetection.py`).

Paths are modelled as lists of components (lists of characters) below the
filesystem root; the filesystem is the finite set of existing file paths.
String-level operations of the source (`str.replace`, `re.sub` scanning,
`pathlib` rendering and parsing) are embedded over `List Char`.
-/

set_option maxRecDepth 20000

/-! ## Basic character-list constants -/

def mdSuffix : List Char := ['.', 'm', 'd']

def dotdot : List Char := ['.', '.']

def enComp : List Char := ['e', 'n']

def slashEnSlash : List Char := ['/', 'e', 'n', '/']

/-! ## Path rendering and parsing (pathlib `str(...)` and `Path(...)`) -/

/-- Render an absolute path's components with a leading slash before each,
matching `str(Path('/a/b')) = "/a/b"` for a nonempty component list. -/
def absRender : List (List Char) → List Char
  | [] => []
  | c :: rest => '/' :: (c ++ absRender rest)

/-- `str()` of an absolute `Path`: the root renders as "/". -/
def pathStr (p : List (List Char)) : List Char :=
  if p = [] then ['/'] else absRender p

/-- Render a relative path's components separated by slashes. -/
def relRender : List (List Char) → List Char
  | [] => []
  | [c] => c
  | c :: rest => c ++ '/' :: relRender rest

/-- `str()` of a relative `Path`: the empty path renders as ".". -/
def renderRelPath (p : List (List Char)) : List Char :=
  if p = [] then ['.'] else relRender p

/-- Split a character list at every slash (keeping empty chunks). -/
def splitAux : List Char → List Char → List (List Char)
  | [], cur => [cur]
  | c :: rest, cur => if c = '/' then cur :: splitAux rest [] else splitAux rest (cur ++ [c])

/-- `Path(s)` component parsing: split on slashes, drop empty and "." chunks
(pathlib collapses repeated slashes and "." components; ".." is kept). -/
def parsePath (s : List Char) : List (List Char) :=
  (splitAux s []).filter (fun c => !(c.isEmpty) && !(c == ['.']))

/-! ## Path resolution (`Path.resolve()`, `/`-join, `with_suffix`, `relative_to`) -/

/-- One step of lexical `..` resolution: `..` drops the last component
(at the root it stays at the root), anything else is appended. -/
def resolveStep (acc : List (List Char)) (c : List Char) : List (List Char) :=
  if c = dotdot then acc.dropLast else acc ++ [c]

/-- Lexical `Path.resolve()` on an absolute component list (no symlinks in
the filesystem model). -/
def resolveAbs (comps : List (List Char)) : List (List Char) :=
  List.foldl resolveStep [] comps

/-- `parent / raw`: pathlib join; an absolute right operand (leading slash)
replaces the left. -/
def joinPath (parent : List (List Char)) (raw : List Char) : List (List Char) :=
  if raw.head? = some '/' then parsePath raw else parent ++ parsePath raw

/-- Index of the last '.' in a name (`name.rfind('.')`), if any. -/
def lastDotIdx (name : List Char) : Option Nat :=
  ((List.range name.length).filter (fun i => name.getD i ' ' == '.')).getLast?

/-- `PurePath.with_suffix('.md')` on a single name: replace the suffix
(the part from the last dot, when that dot is internal) by ".md". -/
def nameWithMd (name : List Char) : List Char :=
  match lastDotIdx name with
  | some i => if 0 < i ∧ i < name.length - 1 then name.take i ++ mdSuffix else name ++ mdSuffix
  | none => name ++ mdSuffix

/-- `Path.with_suffix('.md')` applied to the final component of a path. -/
def withSuffixMd (p : List (List Char)) : List (List Char) :=
  match p.getLast? with
  | none => []
  | some name => p.dropLast ++ [nameWithMd name]

/-- `Path.relative_to`: strips `base` as a component prefix, `none` models the
`ValueError` raised when `base` is not a prefix. -/
def relativeTo (p base : List (List Char)) : Option (List (List Char)) :=
  if base <+: p then some (p.drop base.length) else none

/-! ## `str.replace` (replace all non-overlapping occurrences, left to right) -/

/-- Fueled scanner for Python `str.replace`: at each position, if `pat` is a
prefix, substitute `new` and resume after the consumed occurrence, else copy
one character.  The wrapper below supplies fuel `s.length`, which suffices
for every nonempty pattern. -/
def listReplaceF (pat new : List Char) : Nat → List Char → List Char
  | 0, s => s
  | _ + 1, [] => []
  | fuel + 1, c :: rest =>
    if pat <+: (c :: rest) then new ++ listReplaceF pat new fuel ((c :: rest).drop pat.length)
    else c :: listReplaceF pat new fuel rest

/-- Python `s.replace(pat, new)` for a nonempty pattern. -/
def listReplace (pat new s : List Char) : List Char :=
  listReplaceF pat new s.length s

/-! ## The link replacer (`MarkdownLinkFixer.link_replacer`) -/

/-- Diagnostics printed by `link_replacer`: one redirect line per rewrite,
one warning line per broken link. -/
inductive Diag where
  | redirect (text path : List Char) (parentDir : List (List Char)) (updated : List Char)
  | broken (text path : List Char) (parentDir : List (List Char))
  deriving DecidableEq, Repr

/-- Reassemble an inline link `[text](target)`. -/
def mkLink (t u : List Char) : List Char :=
  '[' :: (t ++ ']' :: '(' :: (u ++ [')']))

/-- Line 101 of the script: the reference-tree candidate
`Path(str(linked_path).replace(str(lang_dir), str(lang_dir.parent / 'en')))`.
Note Python `str.replace` substitutes every non-overlapping occurrence of the
rendered language-directory string. -/
def enCandidate (langDir linked : List (List Char)) : List (List Char) :=
  parsePath (listReplace (pathStr langDir) (pathStr (langDir.dropLast ++ [enComp])) (pathStr linked))

/-- Line 111 of the script: `str(updated_path).replace('/en/', '/')`. -/
def stripEn (s : List Char) : List Char :=
  listReplace slashEnSlash ['/'] s

/-- Lines 103-111 of the script: the new target string for a rewritten link.
In the default relative mode (lines 108-111): `steps_up` parent steps, the
candidate's path relative to the docs root, then the `'/en/'` strip; `none`
models the `ValueError` of a failing `relative_to`.  The `use_abs_link` branch
(lines 104-106, flagged "BUGS, DO NOT USE" in the source and never taken by
the callers) replaces `'en/'` by `'/../'`. -/
def linkUpdated (baseDir langDir : List (List Char)) (parentDir : List (List Char))
    (linked : List (List Char)) (useAbsLink : Bool) : Option (List Char) :=
  if useAbsLink then
    (relativeTo (enCandidate langDir linked) langDir.dropLast).map
      (fun rel => listReplace (enComp ++ ['/']) ['/', '.', '.', '/'] (renderRelPath rel))
  else
    (relativeTo parentDir baseDir).bind (fun parentRel =>
      (relativeTo (enCandidate langDir linked) baseDir).map (fun enRel =>
        stripEn (renderRelPath (List.replicate parentRel.length dotdot ++ enRel))))

/-- `MarkdownLinkFixer.link_replacer(match, parent_dir, lang_dir, use_abs_link)`
for a match with groups `(text, path)`.  Returns the replacement string and the
diagnostics it prints; `none` models an uncaught exception (`with_suffix` on a
root path, or a failing `relative_to`). -/
def link_replacer (fs : List (List (List Char))) (baseDir langDir parentDir : List (List Char))
    (text path : List Char) (useAbsLink : Bool) : Option (List Char × List Diag) :=
  if resolveAbs (joinPath parentDir path) = [] then none
  else if withSuffixMd (resolveAbs (joinPath parentDir path)) ∈ fs then
    some (mkLink text (path ++ mdSuffix), [])
  else if enCandidate langDir (withSuffixMd (resolveAbs (joinPath parentDir path))) ∈ fs then
    match linkUpdated baseDir langDir parentDir
        (withSuffixMd (resolveAbs (joinPath parentDir path))) useAbsLink with
    | some u => some (mkLink text u, [Diag.redirect text path parentDir u])
    | none => none
  else some (mkLink text (path ++ mdSuffix), [Diag.broken text path parentDir])

/-! ## The link pattern matcher (`md_link_regex = r'\[([^]]+)]\(([^:)]+)\.md\)'`) -/

/-- The character class `[^]]` of group 1. -/
def notRB (c : Char) : Bool := !(c == ']')

/-- The character class `[^:)]` of group 2. -/
def notCP (c : Char) : Bool := !(c == ':') && !(c == ')')

/-- Final stage of a match attempt: after group 2's maximal run `run`, the
pattern demands a closing `')'` with the run ending in ".md" and group 2
(`run` minus that tail) nonempty. -/
def mlaFinal (t run : List Char) : List Char → Option (List Char × List Char × List Char)
  | b3 :: rest =>
    if b3 = ')' ∧ t ≠ [] ∧ 4 ≤ run.length ∧ run.drop (run.length - 3) = mdSuffix
    then some (t, run.take (run.length - 3), rest)
    else none
  | [] => none

/-- After `](`, scan group 2's maximal `[^:)]` run. -/
def mlaParen (t r3 : List Char) : Option (List Char × List Char × List Char) :=
  mlaFinal t (r3.takeWhile notCP) (r3.dropWhile notCP)

/-- After `[`, group 1 is the maximal `[^]]` run, which must be followed by
the literal `](`. -/
def mlaBracket (r1 : List Char) : List Char → Option (List Char × List Char × List Char)
  | [] => none
  | [_] => none
  | b1 :: b2 :: r3 =>
    if b1 = ']' ∧ b2 = '(' then mlaParen (r1.takeWhile notRB) r3 else none

def matchLinkAt : List Char → Option (List Char × List Char × List Char)
  | [] => none
  | c :: r1 => if c = '[' then mlaBracket r1 (r1.dropWhile notRB) else none

/-- Segments of a document: a literal character outside every match, or one
matched link with its two capture groups. -/
inductive Seg where
  | chr (c : Char)
  | link (t p : List Char)
  deriving DecidableEq, Repr

/-- The original text a segment came from. -/
def segOrig : Seg → List Char
  | .chr c => [c]
  | .link t p => mkLink t (p ++ mdSuffix)

/-- Rebuild the original document from its segments. -/
def renderDoc : List Seg → List Char
  | [] => []
  | s :: rest => segOrig s ++ renderDoc rest

/-- Fueled regex scan producing the match decomposition of a document
(`re.finditer` order: leftmost match, then continue after its end; on failure
advance one character). -/
def parseDocF : Nat → List Char → List Seg
  | 0, s => s.map Seg.chr
  | _ + 1, [] => []
  | fuel + 1, c :: rest =>
    match matchLinkAt (c :: rest) with
    | some (t, p, after) => Seg.link t p :: parseDocF fuel after
    | none => Seg.chr c :: parseDocF fuel rest

/-- Match decomposition of a document under `md_link_regex`. -/
def parseDoc (s : List Char) : List Seg :=
  parseDocF s.length s

/-- Fueled `re.sub` scan: substitute the replacement for each match, copy every
other character; a `none` from the replacement callback (an exception) aborts
the whole substitution. -/
def subLinksF (repl : List Char → List Char → Option (List Char × List Diag)) :
    Nat → List Char → Option (List Char × List Diag)
  | 0, s => some (s, [])
  | _ + 1, [] => some ([], [])
  | fuel + 1, c :: rest =>
    match matchLinkAt (c :: rest) with
    | some (t, p, after) =>
      match repl t p, subLinksF repl fuel after with
      | some (o1, d1), some (o2, d2) => some (o1 ++ o2, d1 ++ d2)
      | _, _ => none
    | none =>
      match subLinksF repl fuel rest with
      | some (o, d) => some (c :: o, d)
      | none => none

/-- `md_link_regex.sub(repl, content)` with collected diagnostics. -/
def subLinks (repl : List Char → List Char → Option (List Char × List Diag))
    (s : List Char) : Option (List Char × List Diag) :=
  subLinksF repl s.length s

/-- Apply the replacement callback segmentwise to a precomputed decomposition. -/
def runRepl (repl : List Char → List Char → Option (List Char × List Diag)) :
    List Seg → Option (List Char × List Diag)
  | [] => some ([], [])
  | .chr c :: rest =>
    match runRepl repl rest with
    | some (o, d) => some (c :: o, d)
    | none => none
  | .link t p :: rest =>
    match repl t p, runRepl repl rest with
    | some (o1, d1), some (o2, d2) => some (o1 ++ o2, d1 ++ d2)
    | _, _ => none

/-- The link-rewrite phase of `process_markdown_file` (lines 126-127): the
single `md_link_regex.sub` pass with `link_replacer` over the document text.
The decoupled text-normalization passes (`update_text`) are out of scope. -/
def process_markdown_links (fs : List (List (List Char))) (baseDir langDir parentDir : List (List Char))
    (content : List Char) : Option (List Char × List Diag) :=
  subLinks (fun t p => link_replacer fs baseDir langDir parentDir t p false) content

/-- The rewritten text of one pass (dropping diagnostics). -/
def rewriteText (fs : List (List (List Char))) (baseDir langDir parentDir : List (List Char))
    (content : List Char) : Option (List Char) :=
  (process_markdown_links fs baseDir langDir parentDir content).map Prod.fst

/-! ## The tree walker filter (`MarkdownLinkFixer.run`, lines 145-147) -/

/-- Python `\w` over the ASCII range (the directory names at issue are ASCII). -/
def isWordChar (c : Char) : Bool :=
  c.isAlphanum || c == '_'

/-- `re.match(r'^\w\w$', name)`: two word characters, where the unanchored `$`
also matches just before a single trailing newline (Python `$` semantics). -/
def reMatchWW (name : List Char) : Bool :=
  match name with
  | [a, b] => isWordChar a && isWordChar b
  | [a, b, c] => isWordChar a && isWordChar b && c == '\n'
  | _ => false

/-- The subdirectory filter of `run`: keep directory entries whose name matches
`^\w\w$` and is not `'en'`, in iteration order. -/
def runSelect (entries : List (List Char × Bool)) : List (List Char) :=
  (entries.filter (fun e => e.2 && reMatchWW e.1 && !(e.1 == enComp))).map (fun e => e.1)

/-! ## The `Colors` palette (`yolodetection.py`) -/

/-- Value of one hexadecimal digit (`int(_, 16)` on a single character);
`none` models the `ValueError` on a non-hex character. -/
def hexDigitVal (c : Char) : Option Nat :=
  if '0' ≤ c ∧ c ≤ '9' then some (c.toNat - '0'.toNat)
  else if 'a' ≤ c ∧ c ≤ 'f' then some (c.toNat - 'a'.toNat + 10)
  else if 'A' ≤ c ∧ c ≤ 'F' then some (c.toNat - 'A'.toNat + 10)
  else none

/-- `int(two-hex-digit string, 16)`. -/
def hexPair (a b : Char) : Option Nat :=
  match hexDigitVal a, hexDigitVal b with
  | some x, some y => some (16 * x + y)
  | _, _ => none

/-- `Colors.hex2rgb('#RRGGBB')`: parse the three channel bytes
(`int(h[1 + i:1 + i + 2], 16) for i in (0, 2, 4)`). -/
def hex2rgb (h : List Char) : Option (Nat × Nat × Nat) :=
  match h with
  | [_, a, b, c, d, e, f] =>
    match hexPair a b, hexPair c d, hexPair e f with
    | some r, some g, some bl => some (r, g, bl)
    | _, _, _ => none
  | _ => none

/-- The twenty palette hex codes of `Colors.__init__`. -/
def hexs : List (List Char) :=
  [("FF3838".data), ("FF9D97".data), ("FF701F".data), ("FFB21D".data), ("CFD231".data),
   ("48F90A".data), ("92CC17".data), ("3DDB86".data), ("1A9334".data), ("00D4BB".data),
   ("2C99A8".data), ("00C2FF".data), ("344593".data), ("6473FF".data), ("0018EC".data),
   ("8438FF".data), ("520085".data), ("CB38FF".data), ("FF95C8".data), ("FF37C7".data)]

/-- `self.palette = [self.hex2rgb(f'#{c}') for c in hexs]`; the `none` arm is
the unreachable parse-failure case. -/
def palette : List (Nat × Nat × Nat) :=
  match hexs.mapM (fun c => hex2rgb ('#' :: c)) with
  | some l => l
  | none => []

/-- `self.n = len(self.palette)`. -/
def colorsN : Nat := palette.length

/-- `Colors.__call__(i, bgr)`: palette lookup at `int(i) % self.n`, channels
reversed when `bgr` is set.  Python `%` on a positive modulus is `Int.emod`. -/
def colorsCall (i : Int) (bgr : Bool) : Nat × Nat × Nat :=
  if bgr then
    ((palette.getD (Int.toNat (i % (colorsN : Int))) (0, 0, 0)).2.2,
      (palette.getD (Int.toNat (i % (colorsN : Int))) (0, 0, 0)).2.1,
      (palette.getD (Int.toNat (i % (colorsN : Int))) (0, 0, 0)).1)
  else palette.getD (Int.toNat (i % (colorsN : Int))) (0, 0, 0)

/-! ## Concrete example trees and documents -/

def dDocs : List Char := "docs".data

def dEn : List Char := "en".data

def dFr : List Char := "fr".data

def dGuides : List Char := "guides".data

/-- The spec's reference example tree: `docs/en/install.md` exists,
`docs/fr/install.md` does not, the document is `docs/fr/guides/start.md`. -/
def fsC1 : List (List (List Char)) :=
  [[dDocs, dEn, ("install.md".data)],
   [dDocs, dFr, dGuides, ("start.md".data)]]

/-- Tree whose reference subtree contains a nested directory named `en`:
only `docs/en/guides/en/x.md` exists. -/
def fsC2 : List (List (List Char)) :=
  [[dDocs, dEn, dGuides, dEn, ("x.md".data)]]

/-- Tree containing only `docs/en/docs/en.md`: the rendered language-directory
string `/docs/fr` occurs twice inside `/docs/fr/docs/fr.md`. -/
def fsC6 : List (List (List Char)) :=
  [[dDocs, dEn, dDocs, ("en.md".data)]]

/-- Tree whose reference subtree contains a subdirectory named after the
language code: `docs/en/fr/x.md` and `docs/en/x.md` exist. -/
def fsC3 : List (List (List Char)) :=
  [[dDocs, dFr, ("a.md".data)],
   [dDocs, dEn, dFr, ("x.md".data)],
   [dDocs, dEn, ("x.md".data)]]

/-! ## Helper lemmas: takeWhile / dropWhile -/

theorem takeWhile_append_all {q : Char → Bool} {a : List Char} (b : List Char)
    (h : ∀ x ∈ a, q x = true) : (a ++ b).takeWhile q = a ++ b.takeWhile q := by
  induction a with
  | nil => simp
  | cons x xs ih =>
    have hx : q x = true := h x (by simp)
    simp [List.takeWhile, hx]
    exact ih (fun y hy => h y (by simp [hy]))

theorem dropWhile_append_all {q : Char → Bool} {a : List Char} (b : List Char)
    (h : ∀ x ∈ a, q x = true) : (a ++ b).dropWhile q = b.dropWhile q := by
  induction a with
  | nil => simp
  | cons x xs ih =>
    have hx : q x = true := h x (by simp)
    simp [List.dropWhile, hx]
    exact ih (fun y hy => h y (by simp [hy]))

theorem takeWhile_cons_stop {q : Char → Bool} {c : Char} (rest : List Char)
    (h : q c = false) : (c :: rest).takeWhile q = [] := by
  simp [List.takeWhile, h]

theorem dropWhile_cons_stop {q : Char → Bool} {c : Char} (rest : List Char)
    (h : q c = false) : (c :: rest).dropWhile q = c :: rest := by
  simp [List.dropWhile, h]

/-! ## Helper lemmas: the matcher -/

/-- Soundness of `matchLinkAt`: a successful match reconstructs the input as
a well-formed inline link followed by the remainder, with the capture groups
nonempty and free of the regex' excluded characters. -/
theorem matchLinkAt_sound {s t p after : List Char}
    (h : matchLinkAt s = some (t, p, after)) :
    s = mkLink t (p ++ mdSuffix) ++ after ∧ t ≠ [] ∧ (∀ c ∈ t, ¬ c = ']') ∧
      p ≠ [] ∧ (∀ c ∈ p, ¬ c = ':' ∧ ¬ c = ')') ∧ after.length < s.length := by
  cases s with
  | nil => simp [matchLinkAt] at h
  | cons c r1 =>
    simp only [matchLinkAt] at h
    by_cases hc : c = '['
    case neg => rw [if_neg hc] at h; simp at h
    rw [if_pos hc] at h
    subst hc
    set tw : List Char := r1.takeWhile notRB with htw
    rcases hdw1 : r1.dropWhile notRB with _ | ⟨b1, _ | ⟨b2, r3⟩⟩
    · rw [hdw1] at h; simp [mlaBracket] at h
    · rw [hdw1] at h; simp [mlaBracket] at h
    rw [hdw1] at h
    simp only [mlaBracket] at h
    by_cases hb : b1 = ']' ∧ b2 = '('
    case neg => rw [if_neg hb] at h; simp at h
    rw [if_pos hb] at h
    obtain ⟨hb1, hb2⟩ := hb
    subst hb1 hb2
    rw [mlaParen, ← htw] at h
    set run : List Char := r3.takeWhile notCP with hrun
    rcases hdw2 : r3.dropWhile notCP with _ | ⟨b3, rest⟩
    · rw [hdw2] at h; simp [mlaFinal] at h
    rw [hdw2] at h
    simp only [mlaFinal] at h
    by_cases hcond : b3 = ')' ∧ tw ≠ [] ∧ 4 ≤ run.length ∧ run.drop (run.length - 3) = mdSuffix
    case neg => rw [if_neg hcond] at h; simp at h
    rw [if_pos hcond] at h
    obtain ⟨hb3, hne, hlen, hmd⟩ := hcond
    subst hb3
    simp only [Option.some.injEq, Prod.mk.injEq] at h
    obtain ⟨ht, hp, hafter⟩ := h
    have hr1 : r1 = tw ++ (']' :: '(' :: r3) := by
      rw [htw, ← hdw1]
      exact (List.takeWhile_append_dropWhile (p := notRB) (l := r1)).symm
    have hr3 : r3 = run ++ (')' :: rest) := by
      rw [hrun, ← hdw2]
      exact (List.takeWhile_append_dropWhile (p := notCP) (l := r3)).symm
    have hrunsplit : run.take (run.length - 3) ++ mdSuffix = run := by
      conv_rhs => rw [← List.take_append_drop (run.length - 3) run]
      rw [hmd]
    have hshape : '[' :: r1 = mkLink t (p ++ mdSuffix) ++ after := by
      rw [← ht, ← hp, ← hafter, hr1, hr3, mkLink]
      simp [hrunsplit]
    refine ⟨hshape, ht ▸ hne, ?_, ?_, ?_, ?_⟩
    · intro x hx
      rw [← ht, htw] at hx
      have := List.mem_takeWhile_imp hx
      simpa [notRB] using this
    · intro hnil
      rw [← hp] at hnil
      have hl : (run.take (run.length - 3)).length = run.length - 3 := by
        rw [List.length_take]
        omega
      rw [hnil] at hl
      simp at hl
      omega
    · intro x hx
      rw [← hp] at hx
      have hcrun : x ∈ run := List.take_subset _ _ hx
      rw [hrun] at hcrun
      have := List.mem_takeWhile_imp hcrun
      constructor <;> · intro he; subst he; simp [notCP] at this
    · rw [hshape, mkLink]
      simp
      omega

/-- Completeness of `matchLinkAt`: a well-formed inline link at the head of the
input is matched, with exactly its display text and extension-stripped target
as the capture groups. -/
theorem matchLinkAt_complete {t p : List Char} (rest : List Char) (ht : t ≠ []) (hp : p ≠ [])
    (h1 : ∀ c ∈ t, ¬ c = ']') (h2 : ∀ c ∈ p, ¬ c = ':') (h3 : ∀ c ∈ p, ¬ c = ')') :
    matchLinkAt (mkLink t (p ++ mdSuffix) ++ rest) = some (t, p, rest) := by
  have ha1 : ∀ x ∈ t, notRB x = true := by
    intro x hx
    simp [notRB]
    exact h1 x hx
  have ha2 : ∀ x ∈ p ++ mdSuffix, notCP x = true := by
    intro x hx
    rcases List.mem_append.mp hx with hx | hx
    · simp [notCP]
      exact ⟨h2 x hx, h3 x hx⟩
    · fin_cases hx <;> simp [notCP]
  have hshape : mkLink t (p ++ mdSuffix) ++ rest
      = '[' :: (t ++ (']' :: '(' :: ((p ++ mdSuffix) ++ (')' :: rest)))) := by
    rw [mkLink]
    simp
  have hd1 : (t ++ (']' :: '(' :: ((p ++ mdSuffix) ++ (')' :: rest)))).dropWhile notRB
      = ']' :: '(' :: ((p ++ mdSuffix) ++ (')' :: rest)) := by
    rw [dropWhile_append_all _ ha1]
    exact dropWhile_cons_stop _ (by simp [notRB])
  have ht1 : (t ++ (']' :: '(' :: ((p ++ mdSuffix) ++ (')' :: rest)))).takeWhile notRB = t := by
    rw [takeWhile_append_all _ ha1, takeWhile_cons_stop _ (by simp [notRB])]
    simp
  have hd2 : ((p ++ mdSuffix) ++ (')' :: rest)).dropWhile notCP = ')' :: rest := by
    rw [dropWhile_append_all _ ha2]
    exact dropWhile_cons_stop _ (by simp [notCP])
  have ht2 : ((p ++ mdSuffix) ++ (')' :: rest)).takeWhile notCP = p ++ mdSuffix := by
    rw [takeWhile_append_all _ ha2, takeWhile_cons_stop _ (by simp [notCP])]
    simp
  have hlen : (p ++ mdSuffix).length = p.length + 3 := by simp [mdSuffix]
  have hd : (p ++ mdSuffix).drop ((p ++ mdSuffix).length - 3) = mdSuffix := by
    rw [hlen]
    simpa using List.drop_left p mdSuffix
  have htk : (p ++ mdSuffix).take ((p ++ mdSuffix).length - 3) = p := by
    rw [hlen]
    simpa using List.take_left p mdSuffix
  have hge : 4 ≤ (p ++ mdSuffix).length := by
    rw [hlen]
    have : 1 ≤ p.length := List.length_pos.mpr hp
    omega
  rw [hshape]
  simp only [matchLinkAt, if_true]
  rw [hd1]
  simp only [mlaBracket]
  rw [if_pos (And.intro trivial trivial), mlaParen, ht1, hd2, ht2]
  simp only [mlaFinal]
  rw [if_pos ⟨trivial, ht, hge, hd⟩, htk]

theorem matchLinkAt_len {s t p after : List Char}
    (h : matchLinkAt s = some (t, p, after)) : after.length < s.length :=
  (matchLinkAt_sound h).2.2.2.2.2

/-! ## Helper lemmas: the document scan -/

theorem parseDocF_congr : ∀ f g : Nat, ∀ l : List Char, l.length ≤ f → l.length ≤ g →
    parseDocF f l = parseDocF g l := by
  intro f
  induction f with
  | zero =>
    intro g l hf _
    have : l = [] := List.length_eq_zero.mp (Nat.le_zero.mp hf)
    subst this
    cases g <;> simp [parseDocF]
  | succ f ih =>
    intro g l hf hg
    cases l with
    | nil => cases g <;> simp [parseDocF]
    | cons c rest =>
      cases g with
      | zero => simp at hg
      | succ g' =>
        rcases hm : matchLinkAt (c :: rest) with _ | ⟨t, p, after⟩
        · simp only [parseDocF, hm]
          rw [ih g' rest (by simp at hf; omega) (by simp at hg; omega)]
        · have hlt := matchLinkAt_len hm
          simp at hlt
          simp only [parseDocF, hm]
          rw [ih g' after (by simp at hf; omega) (by simp at hg; omega)]

theorem subLinksF_eq_runRepl (repl : List Char → List Char → Option (List Char × List Diag)) :
    ∀ f : Nat, ∀ l : List Char, l.length ≤ f → subLinksF repl f l = runRepl repl (parseDocF f l) := by
  intro f
  induction f with
  | zero =>
    intro l hf
    have : l = [] := List.length_eq_zero.mp (Nat.le_zero.mp hf)
    subst this
    simp [subLinksF, parseDocF, runRepl]
  | succ f ih =>
    intro l hf
    cases l with
    | nil => simp [subLinksF, parseDocF, runRepl]
    | cons c rest =>
      rcases hm : matchLinkAt (c :: rest) with _ | ⟨t, p, after⟩
      · simp only [subLinksF, parseDocF, hm]
        rw [ih rest (by simp at hf; omega)]
        simp [runRepl]
      · have hlt := matchLinkAt_len hm
        simp at hlt
        simp only [subLinksF, parseDocF, hm]
        rw [ih after (by simp at hf; omega)]
        simp [runRepl]

theorem renderDoc_parseDocF : ∀ f : Nat, ∀ l : List Char, l.length ≤ f →
    renderDoc (parseDocF f l) = l := by
  intro f
  induction f with
  | zero =>
    intro l hf
    have : l = [] := List.length_eq_zero.mp (Nat.le_zero.mp hf)
    subst this
    simp [parseDocF, renderDoc]
  | succ f ih =>
    intro l hf
    cases l with
    | nil => simp [parseDocF, renderDoc]
    | cons c rest =>
      rcases hm : matchLinkAt (c :: rest) with _ | ⟨t, p, after⟩
      · simp only [parseDocF, hm, renderDoc, segOrig]
        rw [ih rest (by simp at hf; omega)]
        simp
      · have hlt := matchLinkAt_len hm
        simp at hlt
        simp only [parseDocF, hm, renderDoc, segOrig]
        rw [ih after (by simp at hf; omega)]
        exact ((matchLinkAt_sound hm).1).symm

theorem subLinks_eq_runRepl (repl : List Char → List Char → Option (List Char × List Diag))
    (l : List Char) : subLinks repl l = runRepl repl (parseDoc l) :=
  subLinksF_eq_runRepl repl l.length l le_rfl

theorem renderDoc_parseDoc (l : List Char) : renderDoc (parseDoc l) = l :=
  renderDoc_parseDocF l.length l le_rfl

theorem parseDocF_link_mem : ∀ f : Nat, ∀ l t p : List Char, Seg.link t p ∈ parseDocF f l →
    t ≠ [] ∧ ']' ∉ t ∧ p ≠ [] ∧ ':' ∉ p ∧ ')' ∉ p := by
  intro f
  induction f with
  | zero =>
    intro l t p hmem
    simp [parseDocF] at hmem
  | succ f ih =>
    intro l t p hmem
    cases l with
    | nil => simp [parseDocF] at hmem
    | cons c rest =>
      rcases hm : matchLinkAt (c :: rest) with _ | ⟨t', p', after⟩ <;>
        simp only [parseDocF, hm] at hmem
      · rcases List.mem_cons.mp hmem with hmem | hmem
        · exact absurd hmem (by simp)
        · exact ih rest t p hmem
      · rcases List.mem_cons.mp hmem with hmem | hmem
        · obtain ⟨rfl, rfl⟩ := Seg.link.inj hmem.symm
          obtain ⟨_, ht, h1, hp, h2, _⟩ := matchLinkAt_sound hm
          exact ⟨ht, fun hc => (h1 _ hc) rfl, hp, fun hc => ((h2 _ hc).1) rfl,
            fun hc => ((h2 _ hc).2) rfl⟩
        · exact ih after t p hmem

/-- A well-formed link at the front of a document is the first match, and
scanning then continues independently on the remainder. -/
theorem parseDoc_front {t p : List Char} (rest : List Char) (ht : t ≠ []) (hp : p ≠ [])
    (h1 : ∀ c ∈ t, ¬ c = ']') (h2 : ∀ c ∈ p, ¬ c = ':') (h3 : ∀ c ∈ p, ¬ c = ')') :
    parseDoc (mkLink t (p ++ mdSuffix) ++ rest) = Seg.link t p :: parseDoc rest := by
  have hm := matchLinkAt_complete rest ht hp h1 h2 h3
  have hshape : mkLink t (p ++ mdSuffix) ++ rest
      = '[' :: (t ++ ']' :: '(' :: ((p ++ mdSuffix) ++ ')' :: rest)) := by
    rw [mkLink]
    simp
  have hlen : (t ++ ']' :: '(' :: ((p ++ mdSuffix) ++ ')' :: rest)).length
      = t.length + p.length + 6 + rest.length := by
    simp [mdSuffix]
    omega
  unfold parseDoc
  rw [hshape] at hm ⊢
  simp only [List.length_cons, parseDocF, hm]
  rw [parseDocF_congr _ rest.length rest (by rw [hlen]; omega) le_rfl]

/-- If the replacement callback returns every matched link unchanged, the
segmentwise substitution reproduces the original text. -/
theorem runRepl_id (repl : List Char → List Char → Option (List Char × List Diag)) :
    ∀ segs : List Seg,
    (∀ t p, Seg.link t p ∈ segs → ∃ d, repl t p = some (mkLink t (p ++ mdSuffix), d)) →
    ∃ d, runRepl repl segs = some (renderDoc segs, d) := by
  intro segs
  induction segs with
  | nil => exact fun _ => ⟨[], rfl⟩
  | cons s rest ih =>
    intro h
    obtain ⟨d2, hd2⟩ := ih (fun t p hm => h t p (List.mem_cons_of_mem _ hm))
    cases s with
    | chr c =>
      refine ⟨d2, ?_⟩
      simp only [runRepl]
      rw [hd2]
      simp [renderDoc, segOrig]
    | link t p =>
      obtain ⟨d1, hd1⟩ := h t p (List.mem_cons_self _ _)
      refine ⟨d1 ++ d2, ?_⟩
      simp only [runRepl]
      rw [hd1, hd2]
      simp [renderDoc, segOrig]

/-! ## Helper lemmas: `str.replace` -/

theorem listReplaceF_congr {pat : List Char} (new : List Char) (hp : pat ≠ []) :
    ∀ f g : Nat, ∀ s : List Char, s.length ≤ f → s.length ≤ g →
    listReplaceF pat new f s = listReplaceF pat new g s := by
  intro f
  induction f with
  | zero =>
    intro g s hf _
    have : s = [] := List.length_eq_zero.mp (Nat.le_zero.mp hf)
    subst this
    cases g <;> simp [listReplaceF]
  | succ f ih =>
    intro g s hf hg
    cases s with
    | nil => cases g <;> simp [listReplaceF]
    | cons c rest =>
      cases g with
      | zero => simp at hg
      | succ g' =>
        have hplen : 1 ≤ pat.length := List.length_pos.mpr hp
        simp only [listReplaceF]
        by_cases hpre : pat <+: (c :: rest)
        · rw [if_pos hpre, if_pos hpre]
          have hd : ((c :: rest).drop pat.length).length ≤ rest.length := by
            simp [List.length_drop]
            omega
          simp at hf hg
          rw [ih g' _ (by omega) (by omega)]
        · rw [if_neg hpre, if_neg hpre]
          simp at hf hg
          rw [ih g' rest (by omega) (by omega)]

theorem listReplaceF_toWrap {pat : List Char} (new : List Char) (hp : pat ≠ []) (f : Nat)
    (s : List Char) (h : s.length ≤ f) : listReplaceF pat new f s = listReplace pat new s :=
  listReplaceF_congr new hp f s.length s h le_rfl

theorem listReplace_cons_no {pat : List Char} (new : List Char) (c : Char) (s : List Char)
    (h : ¬ pat <+: (c :: s)) : listReplace pat new (c :: s) = c :: listReplace pat new s := by
  unfold listReplace
  simp only [List.length_cons, listReplaceF]
  rw [if_neg h]

theorem listReplace_head {pat : List Char} (new : List Char) (hp : pat ≠ []) (s : List Char) :
    listReplace pat new (pat ++ s) = new ++ listReplace pat new s := by
  cases hpat : pat with
  | nil => exact absurd hpat hp
  | cons q qs =>
    rw [← hpat]
    have hcons : pat ++ s = q :: (qs ++ s) := by rw [hpat]; simp
    unfold listReplace
    rw [hcons]
    simp only [List.length_cons, listReplaceF]
    rw [← hcons, if_pos (List.prefix_append pat s)]
    rw [List.drop_left pat s]
    congr 1
    have : s.length ≤ (qs ++ s).length := by simp
    exact listReplaceF_toWrap new hp _ s this

theorem listReplace_no_occ {pat : List Char} (new : List Char) (hp : pat ≠ []) :
    ∀ s : List Char, ¬ pat <:+: s → listReplace pat new s = s := by
  intro s
  induction s with
  | nil => intro _; simp [listReplace, listReplaceF]
  | cons c rest ih =>
    intro h
    have hpre : ¬ pat <+: (c :: rest) := by
      intro hpre
      obtain ⟨u, hu⟩ := hpre
      exact h ⟨[], u, by simpa using hu⟩
    rw [listReplace_cons_no new c rest hpre, ih]
    intro hinf
    obtain ⟨u, v, huv⟩ := hinf
    exact h ⟨c :: u, v, by simp [← huv]⟩

theorem listReplace_skip {pat : List Char} (new : List Char) :
    ∀ a s : List Char, (∀ i, i < a.length → ¬ pat <+: ((a ++ s).drop i)) →
    listReplace pat new (a ++ s) = a ++ listReplace pat new s := by
  intro a
  induction a with
  | nil => intro s _; simp
  | cons x a' ih =>
    intro s h
    have h0 : ¬ pat <+: (x :: (a' ++ s)) := by
      have := h 0 (by simp)
      simpa using this
    rw [List.cons_append, listReplace_cons_no new x (a' ++ s) h0,
      ih s (fun i hi => by
        have := h (i + 1) (by simp; omega)
        simpa using this)]
    simp

theorem no_en_start_dot (s : List Char) : ¬ slashEnSlash <+: ('.' :: s) := by
  intro h
  rcases List.cons_prefix_cons.mp h with ⟨he, _⟩
  exact absurd he (by decide)

theorem no_en_start_slashdot (s : List Char) : ¬ slashEnSlash <+: ('/' :: '.' :: s) := by
  intro h
  rcases List.cons_prefix_cons.mp h with ⟨_, h2⟩
  rcases List.cons_prefix_cons.mp h2 with ⟨he, _⟩
  exact absurd he (by decide)

theorem listReplace_dots (new : List Char) :
    ∀ m : Nat, ∀ s : List Char,
    listReplace slashEnSlash new (absRender (List.replicate m dotdot) ++ s)
      = absRender (List.replicate m dotdot) ++ listReplace slashEnSlash new s := by
  intro m
  induction m with
  | zero => intro s; simp [absRender]
  | succ m ih =>
    intro s
    have hrep : absRender (List.replicate (m + 1) dotdot)
        = '/' :: '.' :: '.' :: absRender (List.replicate m dotdot) := by
      rw [List.replicate_succ, absRender, dotdot]
      simp
    rw [hrep]
    have hs : ('/' :: '.' :: '.' :: absRender (List.replicate m dotdot)) ++ s
        = ['/', '.', '.'] ++ (absRender (List.replicate m dotdot) ++ s) := by simp
    rw [hs]
    rw [listReplace_skip new ['/', '.', '.'] (absRender (List.replicate m dotdot) ++ s) ?_, ih s]
    · simp
    · intro i hi
      rcases i with _ | i
      · simpa using no_en_start_slashdot ('.' :: (absRender (List.replicate m dotdot) ++ s))
      rcases i with _ | i
      · simpa using no_en_start_dot ('.' :: (absRender (List.replicate m dotdot) ++ s))
      rcases i with _ | i
      · simpa using no_en_start_dot (absRender (List.replicate m dotdot) ++ s)
      · exact absurd hi (by simp)

theorem listReplace_leading_dots (new : List Char) (s : List Char) :
    listReplace slashEnSlash new (dotdot ++ s) = dotdot ++ listReplace slashEnSlash new s := by
  rw [listReplace_skip new dotdot s ?_]
  intro i hi
  rw [dotdot] at hi ⊢
  rcases i with _ | i
  · simpa using no_en_start_dot ('.' :: s)
  rcases i with _ | i
  · simpa using no_en_start_dot s
  · exact absurd hi (by simp)

/-! ## Helper lemmas: rendering, parsing and resolution -/

/-- Components acceptable to the `Path` parser roundtrip: nonempty, no slash,
not the "." that pathlib drops. -/
def RComp (c : List Char) : Prop :=
  c ≠ [] ∧ (∀ x ∈ c, x ≠ '/') ∧ c ≠ ['.']

instance (c : List Char) : Decidable (RComp c) := by
  unfold RComp
  infer_instance

theorem absRender_append (xs ys : List (List Char)) :
    absRender (xs ++ ys) = absRender xs ++ absRender ys := by
  induction xs with
  | nil => simp [absRender]
  | cons c rest ih => simp [absRender, ih]

theorem absRender_eq_cons_relRender : ∀ cs : List (List Char), cs ≠ [] →
    absRender cs = '/' :: relRender cs := by
  intro cs
  induction cs with
  | nil => intro h; exact absurd rfl h
  | cons c rest ih =>
    intro _
    cases rest with
    | nil => simp [absRender, relRender]
    | cons d rest' =>
      rw [absRender, relRender, ih (by simp)]
      simp

theorem pathStr_of_ne_nil (p : List (List Char)) (h : p ≠ []) : pathStr p = absRender p := by
  rw [pathStr, if_neg h]

theorem pathStr_append (xs ys : List (List Char)) (h : xs ≠ []) :
    pathStr (xs ++ ys) = pathStr xs ++ absRender ys := by
  rw [pathStr_of_ne_nil _ (by simp [h]), pathStr_of_ne_nil _ h, absRender_append]

theorem splitAux_chunk : ∀ c : List Char, (∀ x ∈ c, x ≠ '/') → ∀ cur s : List Char,
    splitAux (c ++ s) cur = splitAux s (cur ++ c) := by
  intro c
  induction c with
  | nil => intro _ cur s; simp
  | cons x c' ih =>
    intro hx cur s
    have hxs : ¬ x = '/' := hx x (by simp)
    rw [List.cons_append, splitAux, if_neg hxs,
      ih (fun y hy => hx y (by simp [hy])) (cur ++ [x]) s]
    simp

theorem splitAux_slash (s cur : List Char) : splitAux ('/' :: s) cur = cur :: splitAux s [] := by
  rw [splitAux, if_pos rfl]

theorem parsePath_absRender : ∀ cs : List (List Char), (∀ c ∈ cs, RComp c) →
    parsePath (absRender cs) = cs := by
  intro cs
  induction cs with
  | nil => intro _; simp [absRender, parsePath, splitAux]
  | cons c rest ih =>
    intro h
    obtain ⟨hc1, hc2, hc3⟩ := h c (by simp)
    have hkeep : (!(c.isEmpty) && !(c == ['.'])) = true := by
      simp [List.isEmpty_iff]
      exact ⟨hc1, hc3⟩
    rw [absRender]
    unfold parsePath
    rw [splitAux_slash, splitAux_chunk c hc2 [] (absRender rest)]
    cases rest with
    | nil =>
      simp only [absRender, List.nil_append]
      rw [show splitAux ([] : List Char) c = [c] from rfl]
      simp [List.filter, hkeep]
    | cons d rest' =>
      rw [absRender, List.nil_append, splitAux_slash]
      have ihr := ih (fun x hx => h x (by simp [hx]))
      unfold parsePath at ihr
      rw [absRender, splitAux_slash] at ihr
      simp only [List.filter] at ihr ⊢
      rw [hkeep]
      simp only [List.filter_cons] at ihr ⊢
      simp at ihr ⊢
      exact ihr

theorem parsePath_relRender : ∀ cs : List (List Char), (∀ c ∈ cs, RComp c) → cs ≠ [] →
    parsePath (relRender cs) = cs := by
  intro cs
  induction cs with
  | nil => intro _ h; exact absurd rfl h
  | cons c rest ih =>
    intro h _
    obtain ⟨hc1, hc2, hc3⟩ := h c (by simp)
    have hkeep : (!(c.isEmpty) && !(c == ['.'])) = true := by
      simp [List.isEmpty_iff]
      exact ⟨hc1, hc3⟩
    cases rest with
    | nil =>
      unfold parsePath
      rw [relRender, show (c : List Char) = c ++ [] by simp, splitAux_chunk c hc2 [] []]
      rw [show splitAux ([] : List Char) ([] ++ c) = [[] ++ c] from rfl]
      simp [List.filter, hkeep]
    | cons d rest' =>
      unfold parsePath
      rw [show relRender (c :: d :: rest') = c ++ '/' :: relRender (d :: rest') from rfl,
        splitAux_chunk c hc2 [] ('/' :: relRender (d :: rest')), splitAux_slash]
      have ihr := ih (fun x hx => h x (by simp [hx])) (by simp)
      unfold parsePath at ihr
      simp only [List.filter_cons, List.nil_append] at ihr ⊢
      rw [hkeep]
      simp at ihr ⊢
      exact ihr

theorem foldl_resolve_wf : ∀ rs : List (List Char), (∀ c ∈ rs, c ≠ dotdot) →
    ∀ acc, List.foldl resolveStep acc rs = acc ++ rs := by
  intro rs
  induction rs with
  | nil => intro _ acc; simp
  | cons c rest ih =>
    intro h acc
    rw [List.foldl_cons, resolveStep, if_neg (h c (by simp)), ih (fun x hx => h x (by simp [hx]))]
    simp

theorem foldl_resolve_dots : ∀ k : Nat, ∀ acc : List (List Char),
    List.foldl resolveStep acc (List.replicate k dotdot) = acc.take (acc.length - k) := by
  intro k
  induction k with
  | zero => intro acc; simp
  | succ k ih =>
    intro acc
    rw [List.replicate_succ, List.foldl_cons, resolveStep, if_pos rfl, ih,
      List.dropLast_eq_take, List.take_take, List.length_take]
    congr 1
    omega

theorem relativeTo_append (base r : List (List Char)) :
    relativeTo (base ++ r) base = some r := by
  rw [relativeTo, if_pos (List.prefix_append base r)]
  rw [List.drop_left base r]

theorem dropLast_append_left (xs : List (List Char)) : ∀ ys : List (List Char), ys ≠ [] →
    (xs ++ ys).dropLast = xs ++ ys.dropLast := by
  induction xs with
  | nil => intro ys _; simp
  | cons x xs' ih =>
    intro ys hy
    have hne : xs' ++ ys ≠ [] := by simp [hy]
    rw [List.cons_append, List.dropLast_cons_of_ne_nil hne, ih ys hy]
    simp

theorem pathStr_ne_nil (p : List (List Char)) : pathStr p ≠ [] := by
  unfold pathStr
  split
  · simp
  · next h =>
    cases p with
    | nil => exact absurd rfl h
    | cons c rest => simp [absRender]

/-! ## Claim theorems -/

/-- Claim C10: palette indexing is total.  For every integer index and either
value of the `bgr` flag, `Colors.__call__` returns a 3-tuple taken from the
fixed 20-entry palette — the index is reduced modulo the palette length, so
the lookup never goes out of range — and the `bgr := true` result is exactly
the channel reversal of the `bgr := false` result for the same index. -/
theorem claim_C10_palette_total (i : Int) (b : Bool) :
    palette.length = 20 ∧
    Int.toNat (i % (colorsN : Int)) < palette.length ∧
    colorsCall i false ∈ palette ∧
    colorsCall i true
      = ((colorsCall i false).2.2, (colorsCall i false).2.1, (colorsCall i false).1) ∧
    (∃ c ∈ palette, colorsCall i b = if b then (c.2.2, c.2.1, c.1) else c) := by
  have h20 : palette.length = 20 := by decide
  have hN : (colorsN : Int) = 20 := by
    rw [colorsN, h20]
    rfl
  have hlt : Int.toNat (i % (colorsN : Int)) < palette.length := by
    rw [hN, h20]
    have h1 : 0 ≤ i % 20 := Int.emod_nonneg i (by decide)
    have h2 : i % 20 < 20 := Int.emod_lt_of_pos i (by decide)
    omega
  have hcf : colorsCall i false
      = palette.getD (Int.toNat (i % (colorsN : Int))) (0, 0, 0) := by
    simp [colorsCall]
  have hmem : colorsCall i false ∈ palette := by
    rw [hcf, List.getD_eq_getElem palette (0, 0, 0) hlt]
    exact List.getElem_mem hlt
  have hrev : colorsCall i true
      = ((colorsCall i false).2.2, (colorsCall i false).2.1, (colorsCall i false).1) := by
    rw [hcf]
    simp [colorsCall]
  refine ⟨h20, hlt, hmem, hrev, colorsCall i false, hmem, ?_⟩
  cases b with
  | false => simp
  | true => simpa using hrev

/-- Claim C5: locality preservation.  When the link target — resolved against
the containing document's directory and normalized to the `.md` extension —
exists on disk under the same language directory, `link_replacer` returns the
matched text unchanged with no diagnostic (and no exception). -/
theorem claim_C5_locality (fs : List (List (List Char)))
    (baseDir langDir parentDir : List (List Char)) (t p : List Char)
    (hr : resolveAbs (joinPath parentDir p) ≠ [])
    (hex : withSuffixMd (resolveAbs (joinPath parentDir p)) ∈ fs)
    (hunder : langDir <+: withSuffixMd (resolveAbs (joinPath parentDir p))) :
    link_replacer fs baseDir langDir parentDir t p false
      = some (mkLink t (p ++ mdSuffix), []) := by
  rw [link_replacer, if_neg hr, if_pos hex]

theorem claim_C5_locality_witness :
    link_replacer fsC1 [dDocs] [dDocs, dFr] [dDocs, dFr, dGuides]
        ("self".data) ("start".data) false
      = some (mkLink ("self".data) (("start".data) ++ mdSuffix), []) :=
  claim_C5_locality fsC1 [dDocs] [dDocs, dFr] [dDocs, dFr, dGuides]
    ("self".data) ("start".data) (by decide) (by decide) (by decide)

/-- Claim C7: non-link text preservation and span stability.  For every
replacement callback and every document text, the single `re.sub` pass equals
the segmentwise substitution over the decomposition `parseDoc l` computed once
on the original text — so literal characters outside matched spans are copied
verbatim and one link's rewrite never shifts another's span — and that
decomposition reassembles exactly the original text. -/
theorem claim_C7_single_pass (repl : List Char → List Char → Option (List Char × List Diag))
    (l : List Char) :
    subLinks repl l = runRepl repl (parseDoc l) ∧ renderDoc (parseDoc l) = l :=
  ⟨subLinks_eq_runRepl repl l, renderDoc_parseDoc l⟩

/-- Claim C8, counterexample.  In `[a[b](c.md)` the well-formed inline link
`[b](c.md)` occurs (starting at index 2), yet the scanner's only match is the
enclosing span `[a[b](c.md)` with display text `a[b` — leftmost-first
non-overlapping scanning does not match every well-formed link occurrence, so
"matches exactly the well-formed inline links" fails as stated. -/
theorem claim_C8_counterexample :
    parseDoc ("[a[b](c.md)".data) = [Seg.link ("a[b".data) ("c".data)] ∧
    Seg.link ("b".data) ("c".data) ∉ parseDoc ("[a[b](c.md)".data) ∧
    ("[b](c.md)".data) <:+: ("[a[b](c.md)".data) ∧
    ("[b](c.md)".data) = mkLink ("b".data) (("c".data) ++ mdSuffix) ∧
    ("b".data) ≠ [] ∧ ']' ∉ ("b".data) ∧
    ("c".data) ≠ [] ∧ ':' ∉ ("c".data) ∧ ')' ∉ ("c".data) := by
  decide

/-- Claim C8, amended.  The matcher is a pure function of the text whose
non-overlapping leftmost matches decompose the document exactly (the
decomposition reassembles the original text), and every reported match is a
well-formed inline link: nonempty display text without `']'`, nonempty target
without `':'` or `')'` (so anchors and scheme-bearing URLs are never matched);
a well-formed link lying inside an earlier match's span is not reported. -/
theorem claim_C8_matcher_amended (l : List Char) :
    renderDoc (parseDoc l) = l ∧
    ∀ t p, Seg.link t p ∈ parseDoc l →
      t ≠ [] ∧ ']' ∉ t ∧ p ≠ [] ∧ ':' ∉ p ∧ ')' ∉ p :=
  ⟨renderDoc_parseDoc l, fun t p hm => parseDocF_link_mem l.length l t p hm⟩

theorem claim_C8_matcher_amended_witness :
    ("a".data) ≠ [] ∧ ']' ∉ ("a".data) ∧ ("b".data) ≠ [] ∧
      ':' ∉ ("b".data) ∧ ')' ∉ ("b".data) :=
  (claim_C8_matcher_amended ("[a](b.md)".data)).2 ("a".data) ("b".data) (by decide)

/-- Claim C9, counterexample.  A directory entry named `"ab\n"` — three
characters — is processed by `run`'s filter: `re.match(r'^\w\w$', name)`
succeeds because Python's `$` also matches just before a single trailing
newline, so "exactly the two-character names" fails as stated. -/
theorem claim_C9_counterexample :
    runSelect [(['a', 'b', '\n'], true)] = [['a', 'b', '\n']] ∧
    (['a', 'b', '\n'] : List Char).length ≠ 2 ∧
    (['a', 'b', '\n'] : List Char) ≠ enComp := by
  decide

/-- Claim C9, amended.  `run` processes exactly the directory entries whose
name matches `^\w\w$` — two word characters, or two word characters followed
by one trailing newline (Python `$` semantics) — and is not exactly `"en"`;
files and all other names are skipped. -/
theorem claim_C9_filter_amended (entries : List (List Char × Bool)) (e : List Char) :
    (e ∈ runSelect entries ↔ ((e, true) ∈ entries ∧ reMatchWW e = true ∧ e ≠ enComp)) ∧
    (reMatchWW e = true ↔ ∃ a b, (isWordChar a = true ∧ isWordChar b = true) ∧
      (e = [a, b] ∨ e = [a, b, '\n'])) := by
  constructor
  · unfold runSelect
    simp only [List.mem_map, List.mem_filter]
    constructor
    · rintro ⟨⟨n, flag⟩, ⟨hmem, hcond⟩, rfl⟩
      simp only [Bool.and_eq_true, bne_iff_ne, Bool.not_eq_true'] at hcond
      obtain ⟨⟨hflag, hww⟩, hne⟩ := hcond
      subst hflag
      have hn : n ≠ enComp := by
        intro hn
        rw [hn] at hne
        simp at hne
      exact ⟨hmem, hww, by simpa using hn⟩
    · rintro ⟨hmem, hww, hne⟩
      refine ⟨(e, true), ⟨hmem, ?_⟩, rfl⟩
      simp [hww]
      exact hne
  · constructor
    · intro h
      cases e with
      | nil => simp [reMatchWW] at h
      | cons a e1 =>
        cases e1 with
        | nil => simp [reMatchWW] at h
        | cons b e2 =>
          cases e2 with
          | nil =>
            simp only [reMatchWW, Bool.and_eq_true] at h
            exact ⟨a, b, h, Or.inl rfl⟩
          | cons c e3 =>
            cases e3 with
            | nil =>
              simp only [reMatchWW, Bool.and_eq_true, beq_iff_eq] at h
              obtain ⟨⟨ha, hb⟩, hc⟩ := h
              subst hc
              exact ⟨a, b, ⟨ha, hb⟩, Or.inr rfl⟩
            | cons d e4 => simp [reMatchWW] at h
    · rintro ⟨a, b, ⟨ha, hb⟩, rfl | rfl⟩ <;> simp [reMatchWW, ha, hb]

/-- Claim C4: broken-link stability.  For a matched link whose resolved,
`.md`-normalized target is absent on disk and whose reference-tree candidate
is also absent, `link_replacer` returns the original match text byte-identically
with exactly one diagnostic and no exception, and the document scan continues
over the remaining links unchanged. -/
theorem claim_C4_broken_stability (fs : List (List (List Char)))
    (baseDir langDir parentDir : List (List Char)) (t p : List Char)
    (ht : t ≠ []) (ht1 : ∀ c ∈ t, ¬ c = ']')
    (hp : p ≠ []) (hp1 : ∀ c ∈ p, ¬ c = ':') (hp2 : ∀ c ∈ p, ¬ c = ')')
    (hr : resolveAbs (joinPath parentDir p) ≠ [])
    (hmiss : withSuffixMd (resolveAbs (joinPath parentDir p)) ∉ fs)
    (hmiss2 : enCandidate langDir (withSuffixMd (resolveAbs (joinPath parentDir p))) ∉ fs) :
    link_replacer fs baseDir langDir parentDir t p false
      = some (mkLink t (p ++ mdSuffix), [Diag.broken t p parentDir]) ∧
    ∀ rest, subLinks (fun a b => link_replacer fs baseDir langDir parentDir a b false)
        (mkLink t (p ++ mdSuffix) ++ rest)
      = Option.map
          (fun r => (mkLink t (p ++ mdSuffix) ++ r.1, Diag.broken t p parentDir :: r.2))
          (subLinks (fun a b => link_replacer fs baseDir langDir parentDir a b false) rest) := by
  have hfirst : link_replacer fs baseDir langDir parentDir t p false
      = some (mkLink t (p ++ mdSuffix), [Diag.broken t p parentDir]) := by
    rw [link_replacer, if_neg hr, if_neg hmiss, if_neg hmiss2]
  refine ⟨hfirst, fun rest => ?_⟩
  rw [subLinks_eq_runRepl, parseDoc_front rest ht hp ht1 hp1 hp2]
  simp only [runRepl]
  rw [hfirst, ← subLinks_eq_runRepl]
  cases hsub : subLinks (fun a b => link_replacer fs baseDir langDir parentDir a b false) rest with
  | none => simp
  | some r => simp

theorem claim_C4_broken_stability_witness :
    link_replacer fsC1 [dDocs] [dDocs, dFr] [dDocs, dFr, dGuides]
        ("API".data) ("../api/missing".data) false
      = some (mkLink ("API".data) (("../api/missing".data) ++ mdSuffix),
          [Diag.broken ("API".data) ("../api/missing".data) [dDocs, dFr, dGuides]]) :=
  (claim_C4_broken_stability fsC1 [dDocs] [dDocs, dFr] [dDocs, dFr, dGuides] ("API".data)
    ("../api/missing".data) (by decide) (by decide) (by decide) (by decide) (by decide)
    (by decide) (by decide) (by decide)).1

/-- Claim C2, counterexample.  For the document `docs/fr/guides/a.md` linking
to `en/x.md` over the tree `fsC2`, the pre-strip relative path is
`../../en/guides/en/x.md`, which has two internal `en` components; the claim
predicts only the first is removed (`../../guides/en/x.md`), but the code's
`str.replace('/en/', '/')` removes every non-overlapping occurrence and
produces `../../guides/x.md`. -/
theorem claim_C2_counterexample :
    (link_replacer fsC2 [dDocs] [dDocs, dFr] [dDocs, dFr, dGuides]
        ("t".data) ("en/x".data) false).map Prod.fst
      = some (mkLink ("t".data) ("../../guides/x.md".data)) ∧
    mkLink ("t".data) ("../../guides/x.md".data)
      ≠ mkLink ("t".data) ("../../guides/en/x.md".data) := by
  decide

/-- Claim C2, amended.  The `'/en/'` strip removes every non-overlapping
occurrence in one left-to-right pass, not only the first: with no occurrence
starting inside `u`, inside `v`, or within `w`, both delimited `en` segments
are removed.  (Immediately adjacent occurrences overlap, so only the first of
an `en/en` pair is removed — scanning resumes after the substituted slash.) -/
theorem claim_C2_strip_amended (u v w : List Char)
    (hu : ∀ i, i < u.length →
      ¬ slashEnSlash <+: ((u ++ (slashEnSlash ++ (v ++ (slashEnSlash ++ w)))).drop i))
    (hv : ∀ i, i < v.length → ¬ slashEnSlash <+: ((v ++ (slashEnSlash ++ w)).drop i))
    (hw : ¬ slashEnSlash <:+: w) :
    stripEn (u ++ (slashEnSlash ++ (v ++ (slashEnSlash ++ w))))
      = u ++ ('/' :: (v ++ ('/' :: w))) := by
  unfold stripEn
  rw [listReplace_skip _ u _ hu, listReplace_head _ (by decide) _,
    listReplace_skip _ v _ hv, listReplace_head _ (by decide) _,
    listReplace_no_occ _ (by decide) _ hw]
  simp

theorem claim_C2_strip_amended_witness :
    stripEn (("../..".data) ++ (slashEnSlash ++ (("guides".data) ++ (slashEnSlash ++ ("x.md".data)))))
      = ("../..".data) ++ ('/' :: (("guides".data) ++ ('/' :: ("x.md".data)))) :=
  claim_C2_strip_amended ("../..".data) ("guides".data) ("x.md".data)
    (by decide) (by decide) (by decide)

/-- Claim C6, counterexample.  With language directory `/docs/fr` and missing
resolved target `/docs/fr/docs/fr.md` (a link `docs/fr.md` from
`/docs/fr/a.md`), the rendered language-directory string occurs twice, so
`str.replace` also rewrites the final component: the candidate is
`/docs/en/docs/en.md`, not the same-relative-path `/docs/en/docs/fr.md` —
other path components are altered, and the rewrite then uses that candidate. -/
theorem claim_C6_counterexample :
    enCandidate [dDocs, dFr] [dDocs, dFr, dDocs, ("fr.md".data)]
      = [dDocs, dEn, dDocs, ("en.md".data)] ∧
    [dDocs, dEn, dDocs, ("en.md".data)] ≠ [dDocs, dEn, dDocs, ("fr.md".data)] ∧
    [dDocs, dFr, dDocs, ("fr.md".data)] ∉ fsC6 ∧
    (link_replacer fsC6 [dDocs] [dDocs, dFr] [dDocs, dFr]
        ("t".data) ("docs/fr".data) false).map Prod.fst
      = some (mkLink ("t".data) ("../docs/en.md".data)) := by
  decide

/-- Clean candidate construction: when the rendered language-directory string
occurs in the rendered target only as its prefix, the candidate substitutes
the language-directory name segment by `en` and keeps every other component. -/
theorem enCandidate_clean (base : List (List Char)) (L : List Char)
    (rs : List (List Char))
    (hwf : ∀ c ∈ base ++ L :: rs, RComp c)
    (hyg : ¬ pathStr (base ++ [L]) <:+: absRender rs) :
    enCandidate (base ++ [L]) ((base ++ [L]) ++ rs) = (base ++ [enComp]) ++ rs := by
  unfold enCandidate
  rw [pathStr_append (base ++ [L]) rs (by simp)]
  rw [List.dropLast_concat]
  rw [listReplace_head _ (pathStr_ne_nil (base ++ [L])) (absRender rs),
    listReplace_no_occ _ (pathStr_ne_nil (base ++ [L])) _ hyg]
  rw [← pathStr_append (base ++ [enComp]) rs (by simp)]
  rw [pathStr_of_ne_nil _ (by simp), parsePath_absRender]
  intro c hc
  rcases List.mem_append.mp hc with hc | hc
  · rcases List.mem_append.mp hc with hc | hc
    · exact hwf c (by simp [hc])
    · simp at hc
      subst hc
      exact (by decide : RComp enComp)
  · exact hwf c (by simp [hc])

/-- Claim C6, amended.  When the rendered language-directory string occurs in
the rendered target only as its prefix (in particular whenever the missing
target lies under the language directory and the language-directory string
does not reoccur in the remainder), the candidate is exactly the target with
the language-directory name segment replaced by `en`, all other components
unaltered. -/
theorem claim_C6_candidate_amended (base : List (List Char)) (L : List Char)
    (rs : List (List Char))
    (hwf : ∀ c ∈ base ++ L :: rs, RComp c)
    (hyg : ¬ pathStr (base ++ [L]) <:+: absRender rs) :
    enCandidate (base ++ [L]) ((base ++ [L]) ++ rs) = (base ++ [enComp]) ++ rs :=
  enCandidate_clean base L rs hwf hyg

theorem claim_C6_candidate_amended_witness :
    enCandidate ([dDocs] ++ [dFr]) (([dDocs] ++ [dFr]) ++ [dGuides, ("install.md".data)])
      = ([dDocs] ++ [enComp]) ++ [dGuides, ("install.md".data)] :=
  claim_C6_candidate_amended [dDocs] dFr [dGuides, ("install.md".data)]
    (by decide) (by decide)

theorem relRender_cons_ne (c : List Char) (X : List (List Char)) (hX : X ≠ []) :
    relRender (c :: X) = c ++ '/' :: relRender X := by
  cases X with
  | nil => exact absurd rfl hX
  | cons d Y => rfl

theorem absRender_en_cons (rs : List (List Char)) (hrs : rs ≠ []) :
    absRender (enComp :: rs) = slashEnSlash ++ relRender rs := by
  rw [absRender, absRender_eq_cons_relRender rs hrs]
  simp [enComp, slashEnSlash]

/-- The `'/en/'` strip on the built relative path `../(k) / en / rs` removes
exactly the `en` segment when `rs` itself renders without a delimited `en`. -/
theorem stripEn_steps (k : Nat) (rs : List (List Char)) (hk : 1 ≤ k) (hrs : rs ≠ [])
    (hygB : ¬ slashEnSlash <:+: relRender rs) :
    stripEn (relRender (List.replicate k dotdot ++ (enComp :: rs)))
      = relRender (List.replicate k dotdot ++ rs) := by
  obtain ⟨k', rfl⟩ : ∃ k', k = k' + 1 := ⟨k - 1, by omega⟩
  have hXne : List.replicate k' dotdot ++ (enComp :: rs) ≠ [] := by simp
  have hYne : List.replicate k' dotdot ++ rs ≠ [] := by simp [hrs]
  rw [List.replicate_succ, List.cons_append, relRender_cons_ne dotdot _ hXne,
    List.cons_append, relRender_cons_ne dotdot _ hYne,
    show ('/' :: relRender (List.replicate k' dotdot ++ (enComp :: rs)))
        = absRender (List.replicate k' dotdot ++ (enComp :: rs)) from
      (absRender_eq_cons_relRender _ hXne).symm,
    show ('/' :: relRender (List.replicate k' dotdot ++ rs))
        = absRender (List.replicate k' dotdot ++ rs) from
      (absRender_eq_cons_relRender _ hYne).symm,
    absRender_append, absRender_en_cons rs hrs, stripEn,
    listReplace_leading_dots, listReplace_dots, listReplace_head _ (by decide),
    listReplace_no_occ _ (by decide) _ hygB, absRender_append,
    absRender_eq_cons_relRender rs hrs]
  simp

/-- Claim C1, counterexample.  The spec's own reference example: the document
`docs/fr/guides/start.md` links to `../install.md`; `docs/fr/install.md` is
absent and `docs/en/install.md` present.  The rewrite produces
`[Setup](../../install.md)`, and that target, resolved against the document's
directory, is `/docs/install.md` — not the reference-directory file
`/docs/en/install.md` the claim requires. -/
theorem claim_C1_counterexample :
    (link_replacer fsC1 [dDocs] [dDocs, dFr] [dDocs, dFr, dGuides]
        ("Setup".data) ("../install".data) false).map Prod.fst
      = some (mkLink ("Setup".data) ("../../install.md".data)) ∧
    withSuffixMd (resolveAbs (joinPath [dDocs, dFr, dGuides] ("../../install.md".data)))
      = [dDocs, ("install.md".data)] ∧
    [dDocs, ("install.md".data)] ≠ [dDocs, dEn, ("install.md".data)] ∧
    [dDocs, dEn, ("install.md".data)] ∈ fsC1 ∧
    [dDocs, dFr, ("install.md".data)] ∉ fsC1 := by
  decide

/-- Claim C1, amended.  Under the fallback conditions — target
`base/L/rs` absent, reference candidate `base/en/rs` present — with clean
components (no slash, no dots, no stray occurrence of the language-directory
string or of a delimited `en` inside `rs`), the rewritten link is
`../(depth) ++ rs`; resolved against the containing document's directory it
points to `base ++ rs`, the reference file's tree-root-relative location with
the reference-subtree segment elided (the file as served when the reference
subtree is mounted at the tree root), and the reference-subtree name does not
appear as an internal segment of the link target. -/
theorem claim_C1_fallback_amended (fs : List (List (List Char)))
    (base : List (List Char)) (L : List Char) (ds rs : List (List Char)) (t p : List Char)
    (hwf : ∀ c ∈ base ++ L :: (ds ++ rs), RComp c ∧ c ≠ dotdot)
    (hres : withSuffixMd (resolveAbs (joinPath (base ++ L :: ds) p)) = (base ++ [L]) ++ rs)
    (hrs : rs ≠ [])
    (hm1 : (base ++ [L]) ++ rs ∉ fs)
    (hm2 : (base ++ [enComp]) ++ rs ∈ fs)
    (hygA : ¬ pathStr (base ++ [L]) <:+: absRender rs)
    (hygB : ¬ slashEnSlash <:+: relRender rs)
    (hygC : enComp ∉ rs.dropLast) :
    link_replacer fs base (base ++ [L]) (base ++ L :: ds) t p false
      = some (mkLink t (relRender (List.replicate (ds.length + 1) dotdot ++ rs)),
          [Diag.redirect t p (base ++ L :: ds)
            (relRender (List.replicate (ds.length + 1) dotdot ++ rs))]) ∧
    resolveAbs (joinPath (base ++ L :: ds)
        (relRender (List.replicate (ds.length + 1) dotdot ++ rs))) = base ++ rs ∧
    enComp ∉ (parsePath (relRender (List.replicate (ds.length + 1) dotdot ++ rs))).dropLast := by
  have hwfR : ∀ c ∈ base ++ L :: rs, RComp c := by
    intro c hc
    refine (hwf c ?_).1
    rcases List.mem_append.mp hc with hc | hc
    · simp [hc]
    · rcases List.mem_cons.mp hc with hc | hc
      · simp [hc]
      · simp [hc]
  have hrsR : ∀ c ∈ rs, RComp c := fun c hc => (hwf c (by simp [hc])).1
  have hr : resolveAbs (joinPath (base ++ L :: ds) p) ≠ [] := by
    intro h0
    rw [h0] at hres
    simp [withSuffixMd] at hres
  have hEn : enCandidate (base ++ [L]) ((base ++ [L]) ++ rs) = (base ++ [enComp]) ++ rs :=
    enCandidate_clean base L rs hwfR hygA
  -- the new target string
  have hup : linkUpdated base (base ++ [L]) (base ++ L :: ds) ((base ++ [L]) ++ rs) false
      = some (relRender (List.replicate (ds.length + 1) dotdot ++ rs)) := by
    rw [linkUpdated, if_neg (by simp), hEn,
      show base ++ L :: ds = base ++ (L :: ds) from rfl, relativeTo_append base (L :: ds),
      show (base ++ [enComp]) ++ rs = base ++ (enComp :: rs) from by simp,
      relativeTo_append base (enComp :: rs), Option.some_bind, Option.map_some']
    rw [renderRelPath, if_neg (by simp)]
    rw [show (L :: ds).length = ds.length + 1 from by simp]
    rw [stripEn_steps (ds.length + 1) rs (by omega) hrs hygB]
  have hk1 : List.replicate (ds.length + 1) dotdot ++ rs
      = dotdot :: (List.replicate ds.length dotdot ++ rs) := by
    rw [List.replicate_succ]
    simp
  have hupdstr : relRender (List.replicate (ds.length + 1) dotdot ++ rs)
      = dotdot ++ '/' :: relRender (List.replicate ds.length dotdot ++ rs) := by
    rw [hk1, relRender_cons_ne dotdot _ (by simp [hrs])]
  have hhead : (relRender (List.replicate (ds.length + 1) dotdot ++ rs)).head? ≠ some '/' := by
    rw [hupdstr, dotdot]
    simp
  have hparse : parsePath (relRender (List.replicate (ds.length + 1) dotdot ++ rs))
      = List.replicate (ds.length + 1) dotdot ++ rs := by
    refine parsePath_relRender _ ?_ (by simp)
    intro c hc
    rcases List.mem_append.mp hc with hc | hc
    · rw [List.eq_of_mem_replicate hc]
      decide
    · exact hrsR c hc
  refine ⟨?_, ?_, ?_⟩
  · rw [link_replacer, if_neg hr, hres, if_neg hm1, hEn, if_pos hm2, hup]
  · rw [joinPath, if_neg (by simpa using hhead), hparse]
    rw [show (base ++ L :: ds) ++ (List.replicate (ds.length + 1) dotdot ++ rs)
        = ((base ++ L :: ds) ++ List.replicate (ds.length + 1) dotdot) ++ rs from by simp]
    rw [resolveAbs, List.foldl_append, List.foldl_append]
    rw [foldl_resolve_wf (base ++ L :: ds)
      (fun c hc => (hwf c (by
        rcases List.mem_append.mp hc with hc | hc
        · simp [hc]
        · rcases List.mem_cons.mp hc with hc | hc <;> simp [hc])).2) []]
    rw [List.nil_append, foldl_resolve_dots]
    rw [show (base ++ L :: ds).length - (ds.length + 1) = base.length from by simp]
    rw [show base ++ L :: ds = base ++ (L :: ds) from rfl, List.take_left base (L :: ds)]
    exact foldl_resolve_wf rs (fun c hc => (hwf c (by simp [hc])).2) base
  · rw [hparse, dropLast_append_left _ rs hrs]
    intro hc
    rcases List.mem_append.mp hc with hc | hc
    · have := List.eq_of_mem_replicate hc
      simp [enComp, dotdot] at this
    · exact hygC hc

theorem claim_C1_fallback_amended_witness :
    link_replacer fsC1 [dDocs] ([dDocs] ++ [dFr]) ([dDocs] ++ dFr :: [dGuides])
        ("Setup".data) ("../install".data) false
      = some (mkLink ("Setup".data)
            (relRender (List.replicate 2 dotdot ++ [("install.md".data)])),
          [Diag.redirect ("Setup".data) ("../install".data) ([dDocs] ++ dFr :: [dGuides])
            (relRender (List.replicate 2 dotdot ++ [("install.md".data)]))]) ∧
    resolveAbs (joinPath ([dDocs] ++ dFr :: [dGuides])
        (relRender (List.replicate 2 dotdot ++ [("install.md".data)])))
      = [dDocs] ++ [("install.md".data)] ∧
    enComp ∉ (parsePath (relRender (List.replicate 2 dotdot ++ [("install.md".data)]))).dropLast :=
  claim_C1_fallback_amended fsC1 [dDocs] dFr [dGuides] [("install.md".data)]
    ("Setup".data) ("../install".data) (by decide) (by decide) (by decide)
    (by decide) (by decide) (by decide) (by decide) (by decide)

/-- Claim C3, counterexample.  Over the fixed tree `fsC3` (the reference
subtree contains a subdirectory named `fr`), the document `[t](fr/x.md)` in
`docs/fr/a.md` is rewritten to `[t](../fr/x.md)` by the first pass; the second
pass, on the same filesystem state, rewrites again to `[t](../x.md)`:
`rewrite(rewrite(D)) ≠ rewrite(D)`. -/
theorem claim_C3_counterexample :
    rewriteText fsC3 [dDocs] [dDocs, dFr] [dDocs, dFr] ("[t](fr/x.md)".data)
      = some ("[t](../fr/x.md)".data) ∧
    rewriteText fsC3 [dDocs] [dDocs, dFr] [dDocs, dFr] ("[t](../fr/x.md)".data)
      = some ("[t](../x.md)".data) ∧
    ("[t](../x.md)".data) ≠ ("[t](../fr/x.md)".data) := by
  decide

/-- Claim C3, amended.  One pass of the rewrite is idempotent at the text
level provided every link of the once-rewritten document resolves as
*unchanged* or *broken*: its resolved target either exists, or its
reference-tree candidate is also absent.  (Without that proviso a second pass
can rewrite again — see the counterexample, where a stripped link re-enters
the language tree.)  Previously rewritten links satisfy the proviso as
*broken*, not *unchanged*, outcomes: their text is preserved but a diagnostic
is still emitted. -/
theorem claim_C3_idempotent_amended (fs : List (List (List Char)))
    (baseDir langDir parentDir : List (List Char)) (D D' : List Char) (ds : List Diag)
    (h1 : process_markdown_links fs baseDir langDir parentDir D = some (D', ds))
    (h2 : ∀ t p, Seg.link t p ∈ parseDoc D' →
      resolveAbs (joinPath parentDir p) ≠ [] ∧
      (withSuffixMd (resolveAbs (joinPath parentDir p)) ∈ fs ∨
        enCandidate langDir (withSuffixMd (resolveAbs (joinPath parentDir p))) ∉ fs)) :
    rewriteText fs baseDir langDir parentDir D = some D' ∧
    rewriteText fs baseDir langDir parentDir D' = some D' := by
  constructor
  · rw [rewriteText, h1]
    rfl
  · have hre : ∀ t p, Seg.link t p ∈ parseDoc D' →
        ∃ d, link_replacer fs baseDir langDir parentDir t p false
          = some (mkLink t (p ++ mdSuffix), d) := by
      intro t p hm
      obtain ⟨hr, hcase⟩ := h2 t p hm
      by_cases hex : withSuffixMd (resolveAbs (joinPath parentDir p)) ∈ fs
      · exact ⟨[], by rw [link_replacer, if_neg hr, if_pos hex]⟩
      · rcases hcase with hcase | hm2
        · exact absurd hcase hex
        · exact ⟨[Diag.broken t p parentDir],
            by rw [link_replacer, if_neg hr, if_neg hex, if_neg hm2]⟩
    obtain ⟨d, hd⟩ := runRepl_id
      (fun a b => link_replacer fs baseDir langDir parentDir a b false) (parseDoc D') hre
    rw [rewriteText, process_markdown_links, subLinks_eq_runRepl, hd, renderDoc_parseDoc]
    rfl

theorem claim_C3_idempotent_amended_witness :
    rewriteText fsC1 [dDocs] [dDocs, dFr] [dDocs, dFr, dGuides]
        ("[Setup](../install.md)".data) = some ("[Setup](../../install.md)".data) ∧
    rewriteText fsC1 [dDocs] [dDocs, dFr] [dDocs, dFr, dGuides]
        ("[Setup](../../install.md)".data) = some ("[Setup](../../install.md)".data) :=
  claim_C3_idempotent_amended fsC1 [dDocs] [dDocs, dFr] [dDocs, dFr, dGuides]
    ("[Setup](../install.md)".data) ("[Setup](../../install.md)".data)
    [Diag.redirect ("Setup".data) ("../install".data) [dDocs, dFr, dGuides]
      ("../../install.md".data)]
    (by decide)
    (by
      intro t p hm
      rw [show parseDoc ("[Setup](../../install.md)".data)
          = [Seg.link ("Setup".data) ("../../install".data)] from by decide] at hm
      simp only [List.mem_singleton] at hm
      obtain ⟨rfl, rfl⟩ := Seg.link.inj hm
      decide)
